import Mathlib

/-!
Verification of the forest CLI's core decision logic: remote-URL
normalization (`git.NormalizeRemoteURL`), the project resolver
(`config.FindProjectByRemote`), the GitHub link parser
(`github.ParseLink`), and the prune evaluator (`git.PruneCheck`).

Strings are embedded as `List Char`; each definition is a direct
translation of the corresponding Go function, with Go standard-library
helpers (`strings.CutPrefix`, `strings.TrimSuffix`, `strings.Trim`,
`strings.Split`, `strings.Cut`, `strconv.Atoi`, `strconv.Quote`,
`net/url.Parse`) modelled on the fragment of inputs the code exercises.
Fallible functions return `Except`/`Option`; Go's map-index-with-zero-value
idiom is modelled by association-list lookup with default `[]`.
-/

namespace Forest

/-- Go `strings.CutPrefix` collapsed to its use sites: returns `s` with
`p` removed when `p` is a prefix, otherwise `s` unchanged (the `ok`
boolean is only used to select between these two results). -/
def cutPre (p s : List Char) : List Char :=
  if p.isPrefixOf s then s.drop p.length else s

/-- Go `strings.TrimSuffix`: removes one copy of `suf` from the end of
`s` when present, otherwise returns `s` unchanged. -/
def trimSuf (suf s : List Char) : List Char :=
  if suf.isSuffixOf s then s.take (s.length - suf.length) else s

/-- The SSH remote-URL form handled by `git.NormalizeRemoteURL`. -/
def sshPre : List Char := "git@github.com:".toList

/-- The HTTPS remote-URL form handled by `git.NormalizeRemoteURL`. -/
def httpsPre : List Char := "https://github.com/".toList

/-- Trailing suffix trimmed by `git.NormalizeRemoteURL`. -/
def gitSuf : List Char := ".git".toList

/-- Trailing slash trimmed by `git.NormalizeRemoteURL`. -/
def slashSuf : List Char := "/".toList

/-- `git.NormalizeRemoteURL` (package git): strips an SSH
`git@github.com:` prefix, then an HTTPS `https://github.com/` prefix,
then one trailing `.git`, then one trailing `/`. Total; never fails. -/
def NormalizeRemoteURL (raw : List Char) : List Char :=
  trimSuf slashSuf (trimSuf gitSuf (cutPre httpsPre (cutPre sshPre raw)))

/-- Decimal digit test used by the `strconv.Atoi` model. -/
def isDigit (c : Char) : Bool := '0' ≤ c && c ≤ '9'

/-- Accumulating decimal parser used by the `strconv.Atoi` model:
fails on the first non-digit character. -/
def decDigitsAux : List Char → Nat → Option Nat
  | [], acc => some acc
  | c :: cs, acc =>
    if isDigit c then decDigitsAux cs (acc * 10 + (c.toNat - '0'.toNat))
    else Option.none

/-- Largest value of Go's 64-bit `int`. -/
def int64Max : Int := 9223372036854775807

/-- Smallest value of Go's 64-bit `int`. -/
def int64Min : Int := -9223372036854775808

/-- Go `strconv.Atoi` (base 10, 64-bit `int`): optional single leading
`+`/`-` sign, then one or more decimal digits; fails on an empty body,
any non-digit character, or a value outside the `int64` range. -/
def atoi (s : List Char) : Option Int :=
  let signed : Bool × List Char :=
    match s with
    | '+' :: r => (false, r)
    | '-' :: r => (true, r)
    | r => (false, r)
  match signed with
  | (_, []) => Option.none
  | (neg, body) =>
    match decDigitsAux body 0 with
    | Option.none => Option.none
    | some n =>
      let v : Int := if neg then -(n : Int) else (n : Int)
      if int64Min ≤ v ∧ v ≤ int64Max then some v else Option.none

/-- `github.LinkKind`: `KindIssue` or `KindPR`. -/
inductive LinkKind where
  | issue
  | pr
deriving DecidableEq

/-- `github.Link`: parsed components of a GitHub issue or PR URL. -/
structure Link where
  kind : LinkKind
  owner : List Char
  repo : List Char
  number : Int
deriving DecidableEq

/-- The distinct failure cases of `github.ParseLink`, one constructor
per `fmt.Errorf` site, each carrying the datum the Go message quotes. -/
inductive ParseErr where
  | invalidURL (raw : List Char)
  | unsupportedHost (host : List Char)
  | malformedPath (path : List Char)
  | unrecognizedKind (kindStr : List Char)
  | invalidNumber (numStr : List Char)
deriving DecidableEq

/-- The `Host` and `Path` fields of Go's `url.URL` that `ParseLink`
reads. -/
structure URLParts where
  host : List Char
  path : List Char
deriving DecidableEq

/-- Everything before the first occurrence of `c` (the whole list when
`c` is absent). -/
def takeUntil (c : Char) (l : List Char) : List Char :=
  l.takeWhile (fun a => !(a == c))

/-- The hosting domain `ParseLink` requires. -/
def ghHost : List Char := "github.com".toList

/-- Scheme marker of an absolute HTTPS URL. -/
def httpsSchemePre : List Char := "https://".toList

/-- Modelled fragment of Go `net/url.Parse`, restricted to the inputs
the repository feeds it: absolute `https://host/path` URLs without
userinfo, port, or percent-escapes, and scheme-less strings (parsed as
path-only references with empty `Host`). The fragment (`#...`) and
query (`?...`) are cut off, as `url.Parse` keeps them out of `Path`;
ASCII control characters make parsing fail, as in `url.Parse`. -/
def urlParse (raw : List Char) : Option URLParts :=
  if raw.any (fun c => decide (c.toNat < 32) || (c.toNat == 127)) then Option.none
  else
    let s := takeUntil '?' (takeUntil '#' raw)
    if httpsSchemePre.isPrefixOf s then
      let rest := s.drop httpsSchemePre.length
      let host := takeUntil '/' rest
      some ⟨host, rest.drop host.length⟩
    else
      some ⟨[], s⟩

/-- Path segment selecting an issue link. -/
def issuesStr : List Char := "issues".toList

/-- Path segment selecting a pull-request link. -/
def pullStr : List Char := "pull".toList

/-- The segment-consuming tail of `github.ParseLink`: requires at least
four path segments, reads only the first four (owner, repo, kind,
number) and ignores the rest; maps kind `issues`/`pull` through the
`switch`, then parses the number with `strconv.Atoi`. The `path`
argument is quoted by the too-few-segments error, as in the Go code. -/
def linkFromParts (parts : List (List Char)) (path : List Char) : Except ParseErr Link :=
  match parts with
  | owner :: repo :: kindStr :: numStr :: _ =>
    let kind? : Option LinkKind :=
      if kindStr = issuesStr then some .issue
      else if kindStr = pullStr then some .pr
      else Option.none
    match kind? with
    | Option.none => .error (.unrecognizedKind kindStr)
    | some kind =>
      match atoi numStr with
      | Option.none => .error (.invalidNumber numStr)
      | some num => .ok ⟨kind, owner, repo, num⟩
  | _ => .error (.malformedPath path)

/-- Leading run of `c` removed (half of Go `strings.Trim`). -/
def trimLeadC (c : Char) (l : List Char) : List Char :=
  l.dropWhile (fun a => a == c)

/-- Trailing run of `c` removed (other half of Go `strings.Trim`). -/
def trimTrailC (c : Char) (l : List Char) : List Char :=
  (l.reverse.dropWhile (fun a => a == c)).reverse

/-- Go `strings.Trim(s, string(c))` for a one-character cutset: strips
all leading and trailing copies of `c`. -/
def trimC (c : Char) (l : List Char) : List Char :=
  trimTrailC c (trimLeadC c l)

/-- `github.ParseLink` after `url.Parse` succeeded: host check, then
`strings.Split(strings.Trim(u.Path, "/"), "/")`, then segment logic. -/
def ParseLinkCore (u : URLParts) : Except ParseErr Link :=
  if u.host = ghHost then linkFromParts ((trimC '/' u.path).splitOn '/') u.path
  else .error (.unsupportedHost u.host)

/-- `github.ParseLink` (package github): parse the URL, validate the
host, split the path, classify. -/
def ParseLink (raw : List Char) : Except ParseErr Link :=
  match urlParse raw with
  | Option.none => .error (.invalidURL raw)
  | some u => ParseLinkCore u

/-- The remote name the resolver privileges. -/
def originStr : List Char := "origin".toList

/-- One entry of the `projects` slice built by
`config.FindProjectByRemote`: a project name and its remote-name →
normalized-identity map (`remotes map[string]string`), embedded as an
association list. -/
structure ProjectRemotes where
  name : List Char
  remotes : List (List Char × List Char)
deriving DecidableEq

/-- Go `p.remotes["origin"]`: map index with the string zero value, so
a missing key yields `""` (here `[]`). -/
def originD (p : ProjectRemotes) : List Char :=
  (p.remotes.lookup originStr).getD []

/-- `config.hasRemoteNWO`: does any remote's normalized identity equal
`nwo`? (Map iteration order is irrelevant to this existence check.) -/
def hasRemoteNWO (remotes : List (List Char × List Char)) (nwo : List Char) : Bool :=
  remotes.any (fun kv => kv.2 == nwo)

/-- The `after` component of Go `strings.Cut(s, "/")`: everything after
the first `/`, or `""` when there is no `/`. -/
def cutAfterSlash : List Char → List Char
  | [] => []
  | c :: rest => if c = '/' then rest else cutAfterSlash rest

/-- Pass-1 test of `config.FindProjectByRemote`: origin exact match. -/
def pass1b (nwo : List Char) (p : ProjectRemotes) : Bool :=
  originD p == nwo

/-- Pass-2 test of `config.FindProjectByRemote`: some remote matches
and the (present, per the `origin == ""` guard) origin's repo name —
the part after the first `/`, per `strings.Cut` — equals the target's. -/
def pass2b (nwo : List Char) (p : ProjectRemotes) : Bool :=
  hasRemoteNWO p.remotes nwo && !(originD p == ([] : List Char)) &&
    (cutAfterSlash (originD p) == cutAfterSlash nwo)

/-- Pass-3 test of `config.FindProjectByRemote`: any remote matches. -/
def pass3b (nwo : List Char) (p : ProjectRemotes) : Bool :=
  hasRemoteNWO p.remotes nwo

/-- Hexadecimal digit character, for the `strconv.Quote` model. -/
def hexDigitChar (n : Nat) : Char :=
  if n < 10 then Char.ofNat ('0'.toNat + n) else Char.ofNat ('a'.toNat + n - 10)

/-- Go `strconv.Quote` escaping of one character, exact on ASCII: `"`
and `\` get a backslash, the seven named control escapes apply, other
ASCII control characters become `\xHH`; printable characters pass
through unchanged (runes above ASCII are modelled as printable). -/
def escChar (c : Char) : List Char :=
  if c = '"' then ['\\', '"']
  else if c = '\\' then ['\\', '\\']
  else if c = '\x07' then ['\\', 'a']
  else if c = '\x08' then ['\\', 'b']
  else if c = '\x0c' then ['\\', 'f']
  else if c = '\n' then ['\\', 'n']
  else if c = '\r' then ['\\', 'r']
  else if c = '\t' then ['\\', 't']
  else if c = '\x0b' then ['\\', 'v']
  else if c.toNat < 32 ∨ c.toNat = 127 then
    ['\\', 'x', hexDigitChar (c.toNat / 16), hexDigitChar (c.toNat % 16)]
  else [c]

/-- Body of the `strconv.Quote` model: each character escaped. -/
def escBody (s : List Char) : List Char :=
  s.foldr (fun c acc => escChar c ++ acc) []

/-- Go `strconv.Quote` (the `%q` verb): the escaped body wrapped in
double quotes. -/
def goQuote (s : List Char) : List Char :=
  '"' :: escBody s ++ ['"']

/-- Literal part of the resolver's no-match error message. -/
def noMatchPre : List Char := "no project found with remote matching ".toList

/-- The message of `fmt.Errorf("no project found with remote matching %q", nwo)`. -/
def noMatchMsg (nwo : List Char) : List Char := noMatchPre ++ goQuote nwo

/-- Pure core of `config.FindProjectByRemote`, over the already-built
`projects` slice: three ordered passes, first match (in slice order)
wins; on no match, the quoted-identity error. Returns the matching
project's name. -/
def FindProjectByRemote (nwo : List Char) (projects : List ProjectRemotes) :
    Except (List Char) (List Char) :=
  match projects.find? (pass1b nwo) with
  | some p => .ok p.name
  | Option.none =>
    match projects.find? (pass2b nwo) with
    | some p => .ok p.name
    | Option.none =>
      match projects.find? (pass3b nwo) with
      | some p => .ok p.name
      | Option.none => .error (noMatchMsg nwo)

/-- The per-project normalization step of `config.FindProjectByRemote`
(`normalized[r] = git.NormalizeRemoteURL(raw)`): raw remote URLs become
normalized identities before any comparison. -/
def normalizeProject (name : List Char) (raws : List (List Char × List Char)) :
    ProjectRemotes :=
  ⟨name, raws.map (fun kv => (kv.1, NormalizeRemoteURL kv.2))⟩

/-- `git.PruneReason`: `PruneNone`, `PruneMerged`, `PruneRemoteGone`. -/
inductive PruneReason where
  | none
  | merged
  | remoteGone
deriving DecidableEq

/-- Modelled from the spec: the body of `git.PruneCheck` is not among
the provided source files — only its tests (`TestPruneCheck` in
`internal/git/worktree_test.go`) and its caller (`runPrune` in
`cmd/tree/prune.go`) are. Following the spec's contract
`PruneCheck(branch, target, isMergedIntoTarget, remoteBranches)`: the
merge-ancestry result is supplied as a boolean, and `remoteBranches`
is an optional set of branch names (`nil` ⇒ the remote check is
skipped). Merged wins unconditionally; else a provided set not
containing the branch gives `remoteGone`; else `none`. -/
def PruneCheck (branch _target : List Char) (isMergedIntoTarget : Bool)
    (remoteBranches : Option (List (List Char))) : PruneReason :=
  if isMergedIntoTarget then .merged
  else
    match remoteBranches with
    | Option.none => .none
    | some bs => if branch ∈ bs then .none else .remoteGone

/-- Boolean contiguous-substring test: some suffix of `hay` starts with
`needle`. -/
def containsSub (needle hay : List Char) : Bool :=
  hay.tails.any (fun t => needle.isPrefixOf t)

/-- Equality of `Except` results is decidable componentwise. -/
instance {ε α : Type} [DecidableEq ε] [DecidableEq α] : DecidableEq (Except ε α) := fun a b =>
  match a, b with
  | .ok x, .ok y =>
    if h : x = y then .isTrue (by rw [h]) else .isFalse (fun hh => h (Except.ok.inj hh))
  | .error x, .error y =>
    if h : x = y then .isTrue (by rw [h]) else .isFalse (fun hh => h (Except.error.inj hh))
  | .ok _, .error _ => .isFalse (fun hh => Except.noConfusion hh)
  | .error _, .ok _ => .isFalse (fun hh => Except.noConfusion hh)

/-- The repository-name component as claim C4 words it: the part of an
identity after the **last** `/` (the whole identity when there is no
`/`). The code instead uses `strings.Cut`, i.e. the part after the
**first** `/`; this definition exists to compare the two. -/
def specRepoNameLast (s : List Char) : List Char :=
  (s.reverse.takeWhile (fun a => !(a == '/'))).reverse

/-- The spec's resolver-priority concrete case: `P1{origin:
corp/proj-internal, upstream: org/proj}`. -/
def forkP1 : ProjectRemotes :=
  ⟨"P1".toList, [(originStr, "corp/proj-internal".toList), ("upstream".toList, "org/proj".toList)]⟩

/-- The spec's resolver-priority concrete case: `P2{origin: org/proj}`. -/
def forkP2origin : ProjectRemotes :=
  ⟨"P2".toList, [(originStr, "org/proj".toList)]⟩

/-- The spec's fork-preference concrete case: `P2{origin: user/proj,
upstream: org/proj}`. -/
def forkP2fork : ProjectRemotes :=
  ⟨"P2".toList, [(originStr, "user/proj".toList), ("upstream".toList, "org/proj".toList)]⟩

/-- A project with a single non-origin remote (no `origin` key). -/
def qUpstreamOnly : ProjectRemotes :=
  ⟨"q".toList, [("upstream".toList, "x/y".toList)]⟩

/-- A project whose `origin` remote normalized to the empty identity
(e.g. the raw URL `".git"`). -/
def pEmptyOrigin : ProjectRemotes :=
  ⟨"p".toList, [(originStr, ([] : List Char))]⟩

/-- Multi-slash-identity projects exercising pass 2's `strings.Cut`
repo-name comparison: origin `a/q/c`, upstream `x/b/c`. -/
def multiSlashP1 : ProjectRemotes :=
  ⟨"P1".toList, [(originStr, "a/q/c".toList), ("upstream".toList, "x/b/c".toList)]⟩

/-- Companion to `multiSlashP1`: origin `w/e`, upstream `x/b/c`. -/
def multiSlashP2 : ProjectRemotes :=
  ⟨"P2".toList, [(originStr, "w/e".toList), ("upstream".toList, "x/b/c".toList)]⟩

/-- One supported remote-URL shape per index: the four documented
`NormalizeRemoteURL` input forms, the HTTPS form with a trailing slash,
and (index ≥ 5) the already-normalized `owner/repo` form. -/
def mkSupportedURL (i : Nat) (owner repo : List Char) : List Char :=
  match i with
  | 0 => sshPre ++ owner ++ '/' :: (repo ++ gitSuf)
  | 1 => sshPre ++ owner ++ '/' :: repo
  | 2 => httpsPre ++ owner ++ '/' :: (repo ++ gitSuf)
  | 3 => httpsPre ++ owner ++ '/' :: repo
  | 4 => httpsPre ++ owner ++ '/' :: (repo ++ slashSuf)
  | _ => owner ++ '/' :: repo

/-- A character `strconv.Quote` reproduces unchanged: printable ASCII
other than `"` and `\`. -/
def quoteTransparent (c : Char) : Bool :=
  (decide (32 ≤ c.toNat)) && (decide (c.toNat ≤ 126)) && !(c == '"') && !(c == '\\')

end Forest

namespace Forest

/-- C1: for every branch, target, and remote-branch set (including the
empty set and sets not containing the branch), `PruneCheck` with
`isMergedIntoTarget = true` returns `Merged`; the remote-branch-set
contents never change the result when the branch is merged. -/
theorem claim_C1 (branch target : List Char)
    (remoteBranches : Option (List (List Char))) :
    PruneCheck branch target true remoteBranches = PruneReason.merged := rfl

/-- C2: with `isMergedIntoTarget = false`, a provided remote-branch set
not containing the branch yields `RemoteGone`; a provided set containing
it yields `None`; an absent (`nil`) set skips the remote-gone check
entirely and yields `None`. -/
theorem claim_C2 :
    (∀ (branch target : List Char) (bs : List (List Char)), branch ∉ bs →
        PruneCheck branch target false (some bs) = PruneReason.remoteGone) ∧
    (∀ (branch target : List Char) (bs : List (List Char)), branch ∈ bs →
        PruneCheck branch target false (some bs) = PruneReason.none) ∧
    (∀ branch target : List Char,
        PruneCheck branch target false Option.none = PruneReason.none) := by
  refine ⟨?_, ?_, ?_⟩ <;> intros <;> simp [PruneCheck, *]

/-- Closed instance of C2 at concrete branches and sets. -/
theorem claim_C2_witness :
    PruneCheck "feat".toList "main".toList false (some ["other".toList]) =
      PruneReason.remoteGone ∧
    PruneCheck "feat".toList "main".toList false (some ["feat".toList]) =
      PruneReason.none ∧
    PruneCheck "feat".toList "main".toList false Option.none = PruneReason.none :=
  ⟨claim_C2.1 _ _ _ (by decide), claim_C2.2.1 _ _ _ (by decide), claim_C2.2.2 _ _⟩

end Forest

namespace Forest

/-- With at least four segments, the result reads only the first four
and is independent of the extra segments and of the raw path. -/
theorem linkFromParts_take4 (owner repo kindStr numStr : List Char)
    (rest : List (List Char)) (path path' : List Char) :
    linkFromParts (owner :: repo :: kindStr :: numStr :: rest) path =
      linkFromParts [owner, repo, kindStr, numStr] path' := by
  simp only [linkFromParts]

/-- An `issues` third segment classifies the link as an issue, with the
number given by the `strconv.Atoi` model. -/
theorem linkFromParts_issues (owner repo numStr : List Char)
    (rest : List (List Char)) (path : List Char) (n : Int)
    (h : atoi numStr = some n) :
    linkFromParts (owner :: repo :: issuesStr :: numStr :: rest) path =
      .ok ⟨.issue, owner, repo, n⟩ := by
  simp [linkFromParts, h]

/-- A `pull` third segment classifies the link as a PR. -/
theorem linkFromParts_pull (owner repo numStr : List Char)
    (rest : List (List Char)) (path : List Char) (n : Int)
    (h : atoi numStr = some n) :
    linkFromParts (owner :: repo :: pullStr :: numStr :: rest) path =
      .ok ⟨.pr, owner, repo, n⟩ := by
  have hne : pullStr ≠ issuesStr := by decide
  simp [linkFromParts, h, hne]

/-- Any other third segment is rejected as an unrecognized kind. -/
theorem linkFromParts_badkind (owner repo kindStr numStr : List Char)
    (rest : List (List Char)) (path : List Char)
    (h1 : kindStr ≠ issuesStr) (h2 : kindStr ≠ pullStr) :
    linkFromParts (owner :: repo :: kindStr :: numStr :: rest) path =
      .error (.unrecognizedKind kindStr) := by
  simp [linkFromParts, h1, h2]

/-- Fewer than four segments is a malformed path. -/
theorem linkFromParts_short (parts : List (List Char)) (path : List Char)
    (h : parts.length < 4) :
    linkFromParts parts path = .error (.malformedPath path) := by
  match parts with
  | [] => rfl
  | [_] => rfl
  | [_, _] => rfl
  | [_, _, _] => rfl
  | _ :: _ :: _ :: _ :: _ => simp at h; omega

/-- A leading separator is discarded by the `strings.Trim` model. -/
theorem trimC_cons_self (c : Char) (p : List Char) :
    trimC c (c :: p) = trimC c p := by
  simp [trimC, trimLeadC, List.dropWhile_cons]

/-- Stripping a trailing run of `c` absorbs one appended `c`. -/
theorem trimTrailC_append_self (c : Char) (z : List Char) :
    trimTrailC c (z ++ [c]) = trimTrailC c z := by
  simp [trimTrailC, List.dropWhile_cons]

/-- A trailing separator is discarded by the `strings.Trim` model. -/
theorem trimC_append_self (c : Char) (p : List Char) :
    trimC c (p ++ [c]) = trimC c p := by
  unfold trimC trimLeadC
  rw [List.dropWhile_append]
  by_cases h : (p.dropWhile (fun a => a == c)).isEmpty
  · rw [if_pos h]
    rw [List.isEmpty_iff] at h
    rw [h]
    simp [trimTrailC, List.dropWhile_cons]
  · rw [if_neg h]
    exact trimTrailC_append_self c _


/-- C7: `ParseLink` splits the path on `/` after trimming the
leading/trailing slashes (so empty segments they would produce are
discarded), fails with a malformed-path error below four segments,
reads only the first four segments and ignores extra trailing ones,
maps `issues` to an issue link and `pull` to a PR link, rejects any
other third segment as an unrecognized kind; concretely
`.../acme/widgets/pull/12/files` parses to `{PR, acme, widgets, 12}`
and `.../acme/widgets/commits/123` fails. -/
theorem claim_C7 :
    (∀ host p : List Char, host = ghHost →
        ParseLinkCore ⟨host, p⟩ = linkFromParts ((trimC '/' p).splitOn '/') p) ∧
    (∀ p : List Char, trimC '/' ('/' :: p) = trimC '/' p ∧
        trimC '/' (p ++ ['/']) = trimC '/' p) ∧
    (∀ (owner repo kindStr numStr : List Char) (rest : List (List Char))
        (path path' : List Char),
        linkFromParts (owner :: repo :: kindStr :: numStr :: rest) path =
          linkFromParts [owner, repo, kindStr, numStr] path') ∧
    (∀ (parts : List (List Char)) (path : List Char), parts.length < 4 →
        linkFromParts parts path = .error (.malformedPath path)) ∧
    (∀ (owner repo numStr : List Char) (rest : List (List Char))
        (path : List Char) (n : Int), atoi numStr = some n →
        linkFromParts (owner :: repo :: issuesStr :: numStr :: rest) path =
          .ok ⟨.issue, owner, repo, n⟩ ∧
        linkFromParts (owner :: repo :: pullStr :: numStr :: rest) path =
          .ok ⟨.pr, owner, repo, n⟩) ∧
    (∀ (owner repo kindStr numStr : List Char) (rest : List (List Char))
        (path : List Char), kindStr ≠ issuesStr → kindStr ≠ pullStr →
        linkFromParts (owner :: repo :: kindStr :: numStr :: rest) path =
          .error (.unrecognizedKind kindStr)) ∧
    ParseLink "https://github.com/acme/widgets/pull/12/files".toList =
      .ok ⟨.pr, "acme".toList, "widgets".toList, 12⟩ ∧
    ParseLink "https://github.com/acme/widgets/commits/123".toList =
      .error (.unrecognizedKind "commits".toList) := by
  refine ⟨?_, ?_, linkFromParts_take4, linkFromParts_short, ?_, linkFromParts_badkind,
    by decide, by decide⟩
  · intro host p h
    subst h
    simp [ParseLinkCore]
  · intro p
    exact ⟨trimC_cons_self '/' p, trimC_append_self '/' p⟩
  · intro owner repo numStr rest path n h
    exact ⟨linkFromParts_issues _ _ _ _ _ _ h, linkFromParts_pull _ _ _ _ _ _ h⟩

/-- Closed instance of C7 at concrete paths and segments. -/
theorem claim_C7_witness :
    ParseLinkCore ⟨ghHost, "/a/b/issues/1".toList⟩ =
      linkFromParts ((trimC '/' "/a/b/issues/1".toList).splitOn '/')
        "/a/b/issues/1".toList ∧
    linkFromParts ["acme".toList, "w".toList, issuesStr, "5".toList] [] =
      .ok ⟨.issue, "acme".toList, "w".toList, 5⟩ ∧
    linkFromParts ["acme".toList, "w".toList, "commits".toList, "5".toList] [] =
      .error (.unrecognizedKind "commits".toList) ∧
    linkFromParts [] "/p".toList = .error (.malformedPath "/p".toList) :=
  ⟨claim_C7.1 ghHost _ rfl,
   (claim_C7.2.2.2.2.1 _ _ _ [] [] 5 (by decide)).1,
   claim_C7.2.2.2.2.2.1 _ _ _ _ [] _ (by decide) (by decide),
   claim_C7.2.2.2.1 [] _ (by decide)⟩

/-- C6 as stated is false: `strconv.Atoi` accepts a signed integer, so
the fourth segment `-5` is not rejected and `Link.Number` comes out
negative. -/
theorem claim_C6_counterexample :
    ParseLink "https://github.com/a/b/issues/-5".toList =
      .ok ⟨.issue, "a".toList, "b".toList, -5⟩ ∧
    atoi "-5".toList = some (-5) ∧
    ((-5 : Int) < 0) := by decide

/-- C6 amended: under the claim's conditions (host correct, at least
four segments, third segment `issues` or `pull`), `ParseLink` fails
with an invalid-number error exactly when the fourth segment does not
parse as a **signed** 64-bit decimal integer (`strconv.Atoi`), and on
success `Link.Number` equals the parsed value, which may be negative. -/
theorem claim_C6 (owner repo kindStr numStr : List Char)
    (rest : List (List Char)) (path : List Char)
    (hk : kindStr = issuesStr ∨ kindStr = pullStr) :
    (linkFromParts (owner :: repo :: kindStr :: numStr :: rest) path =
        .error (.invalidNumber numStr) ↔ atoi numStr = Option.none) ∧
    (∀ n : Int, atoi numStr = some n →
        ∃ k, linkFromParts (owner :: repo :: kindStr :: numStr :: rest) path =
          .ok ⟨k, owner, repo, n⟩) ∧
    ParseLink "https://github.com/a/b/issues/-5".toList =
      .ok ⟨.issue, "a".toList, "b".toList, -5⟩ := by
  refine ⟨?_, ?_, by decide⟩
  · constructor
    · intro h
      cases ha : atoi numStr with
      | none => rfl
      | some n =>
        rcases hk with hk | hk <;> subst hk
        · rw [linkFromParts_issues _ _ _ _ _ _ ha] at h
          exact absurd h (by simp)
        · rw [linkFromParts_pull _ _ _ _ _ _ ha] at h
          exact absurd h (by simp)
    · intro ha
      rcases hk with hk | hk <;> subst hk
      · simp [linkFromParts, ha]
      · have hne : pullStr ≠ issuesStr := by decide
        simp [linkFromParts, ha, hne]
  · intro n ha
    rcases hk with hk | hk <;> subst hk
    · exact ⟨.issue, linkFromParts_issues _ _ _ _ _ _ ha⟩
    · exact ⟨.pr, linkFromParts_pull _ _ _ _ _ _ ha⟩

/-- Closed instance of the amended C6 at a concrete negative number. -/
theorem claim_C6_witness :
    (linkFromParts ["a".toList, "b".toList, issuesStr, "-5".toList] [] =
        .error (.invalidNumber "-5".toList) ↔ atoi "-5".toList = Option.none) ∧
    (∃ k, linkFromParts ["a".toList, "b".toList, issuesStr, "-5".toList] [] =
        .ok ⟨k, "a".toList, "b".toList, -5⟩) :=
  have h := claim_C6 "a".toList "b".toList issuesStr "-5".toList [] [] (Or.inl rfl)
  ⟨h.1, h.2.1 (-5) (by decide)⟩


/-- A non-empty origin identity equal to `nwo` can only come from an
actual `origin` binding (the `getD` default is `[]`). -/
theorem originD_eq_some {p : ProjectRemotes} {nwo : List Char}
    (h : originD p = nwo) (hne : nwo ≠ []) :
    p.remotes.lookup originStr = some nwo := by
  unfold originD at h
  cases hl : p.remotes.lookup originStr with
  | none => rw [hl] at h; simp at h; exact absurd h hne
  | some v => rw [hl] at h; simp at h; rw [h]

/-- A project with a matching remote has at least one remote. -/
theorem hasRemote_ne_nil {remotes : List (List Char × List Char)} {nwo : List Char}
    (h : hasRemoteNWO remotes nwo = true) : remotes ≠ [] := by
  unfold hasRemoteNWO at h
  rw [List.any_eq_true] at h
  obtain ⟨kv, hkv, _⟩ := h
  exact List.ne_nil_of_mem hkv

/-- Pass 1 finds nothing when no project's origin identity equals the
target. -/
theorem find?_pass1_none {nwo : List Char} {projects : List ProjectRemotes}
    (h : ∀ p ∈ projects, originD p ≠ nwo) :
    projects.find? (pass1b nwo) = Option.none := by
  rw [List.find?_eq_none]
  intro p hp
  simp only [pass1b, beq_iff_eq]
  exact h p hp

/-- Passes 2 and 3 find nothing when no project has a matching remote. -/
theorem find?_pass23_none {nwo : List Char} {projects : List ProjectRemotes}
    (h : ∀ p ∈ projects, hasRemoteNWO p.remotes nwo = false) :
    projects.find? (pass2b nwo) = Option.none ∧
    projects.find? (pass3b nwo) = Option.none := by
  constructor <;> rw [List.find?_eq_none] <;> intro p hp <;>
    simp [pass2b, pass3b, h p hp]

/-- C3 as stated is false at the empty target identity: `""` is a
possible normalized identity (`NormalizeRemoteURL(".git") = ""`), the
project `p` has an `origin` remote with exactly that identity, yet the
resolver returns `q`, whose remote map has no `origin` key at all,
because Go's map index yields the zero value `""` for the missing key
in pass 1. -/
theorem claim_C3_counterexample :
    NormalizeRemoteURL ".git".toList = [] ∧
    FindProjectByRemote [] [qUpstreamOnly, pEmptyOrigin] = .ok "q".toList ∧
    pEmptyOrigin.remotes.lookup originStr = some [] ∧
    qUpstreamOnly.remotes.lookup originStr = Option.none ∧
    "q".toList ≠ "p".toList := by decide

/-- C3 amended: for every **non-empty** target identity, if some
project's `origin` remote has identity exactly equal to the target,
the resolver returns such a project (pass 1), in preference to any
project matching only via a non-origin remote; the spec's concrete
case returns `P2` in either collection order. -/
theorem claim_C3 (nwo : List Char) (projects : List ProjectRemotes)
    (hne : nwo ≠ []) (hex : ∃ p ∈ projects, originD p = nwo) :
    (∃ p ∈ projects, FindProjectByRemote nwo projects = .ok p.name ∧
        p.remotes.lookup originStr = some nwo) ∧
    FindProjectByRemote "org/proj".toList [forkP1, forkP2origin] = .ok "P2".toList ∧
    FindProjectByRemote "org/proj".toList [forkP2origin, forkP1] = .ok "P2".toList := by
  refine ⟨?_, by decide, by decide⟩
  have hs : (projects.find? (pass1b nwo)).isSome := by
    rw [List.find?_isSome]
    obtain ⟨p, hp, he⟩ := hex
    exact ⟨p, hp, by simp [pass1b, he]⟩
  obtain ⟨p, hp⟩ := Option.isSome_iff_exists.mp hs
  have hmem := List.mem_of_find?_eq_some hp
  have he : originD p = nwo := by simpa [pass1b] using List.find?_some hp
  refine ⟨p, hmem, ?_, originD_eq_some he hne⟩
  unfold FindProjectByRemote
  rw [hp]

/-- Closed instance of the amended C3. -/
theorem claim_C3_witness :
    (∃ p ∈ [forkP2origin],
        FindProjectByRemote "org/proj".toList [forkP2origin] = .ok p.name ∧
        p.remotes.lookup originStr = some "org/proj".toList) ∧
    FindProjectByRemote "org/proj".toList [forkP1, forkP2origin] = .ok "P2".toList ∧
    FindProjectByRemote "org/proj".toList [forkP2origin, forkP1] = .ok "P2".toList :=
  claim_C3 _ _ (by decide) (by decide)

/-- C4 as stated is false: the code compares the part after the
**first** `/` (`strings.Cut`), not the last. Against target `x/b/c`,
`P1`'s origin `a/q/c` has the same last component (`c`) while `P2`'s
origin `w/e` does not, so the claim requires `P1`; but neither origin
matches after the first `/` (`q/c` and `e` versus `b/c`), so pass 2
finds nothing and the pass-3 fallback returns `P2` first. -/
theorem claim_C4_counterexample :
    FindProjectByRemote "x/b/c".toList [multiSlashP2, multiSlashP1] = .ok "P2".toList ∧
    hasRemoteNWO multiSlashP1.remotes "x/b/c".toList = true ∧
    hasRemoteNWO multiSlashP2.remotes "x/b/c".toList = true ∧
    originD multiSlashP1 ≠ "x/b/c".toList ∧
    originD multiSlashP2 ≠ "x/b/c".toList ∧
    specRepoNameLast (originD multiSlashP1) = specRepoNameLast "x/b/c".toList ∧
    specRepoNameLast (originD multiSlashP2) ≠ specRepoNameLast "x/b/c".toList ∧
    "P2".toList ≠ multiSlashP1.name := by decide

/-- C4 amended: when pass 1 is empty, among projects with some matching
remote the resolver returns one whose origin's repository-name
component — the part after the **first** `/`, per `strings.Cut` —
equals the target's, ahead of any pass-3 fallback; the spec's concrete
fork-preference case returns `P2` in either order. -/
theorem claim_C4 (nwo : List Char) (projects : List ProjectRemotes)
    (hno1 : ∀ p ∈ projects, originD p ≠ nwo)
    (hex : ∃ p ∈ projects, pass2b nwo p = true) :
    (∃ p ∈ projects, FindProjectByRemote nwo projects = .ok p.name ∧
        hasRemoteNWO p.remotes nwo = true ∧ originD p ≠ [] ∧
        cutAfterSlash (originD p) = cutAfterSlash nwo) ∧
    FindProjectByRemote "org/proj".toList [forkP1, forkP2fork] = .ok "P2".toList ∧
    FindProjectByRemote "org/proj".toList [forkP2fork, forkP1] = .ok "P2".toList := by
  refine ⟨?_, by decide, by decide⟩
  have h1 := find?_pass1_none hno1
  have hs : (projects.find? (pass2b nwo)).isSome := by
    rw [List.find?_isSome]; exact hex
  obtain ⟨p, hp⟩ := Option.isSome_iff_exists.mp hs
  have hmem := List.mem_of_find?_eq_some hp
  have hd : hasRemoteNWO p.remotes nwo = true ∧ originD p ≠ [] ∧
      cutAfterSlash (originD p) = cutAfterSlash nwo := by
    have hpred := List.find?_some hp
    simp only [pass2b, Bool.and_eq_true, Bool.not_eq_eq_eq_not, Bool.not_true,
      beq_iff_eq, beq_eq_false_iff_ne, ne_eq] at hpred
    exact ⟨hpred.1.1, hpred.1.2, hpred.2⟩
  refine ⟨p, hmem, ?_, hd⟩
  unfold FindProjectByRemote
  rw [h1, hp]

/-- Closed instance of the amended C4. -/
theorem claim_C4_witness :
    (∃ p ∈ [forkP2fork],
        FindProjectByRemote "org/proj".toList [forkP2fork] = .ok p.name ∧
        hasRemoteNWO p.remotes "org/proj".toList = true ∧ originD p ≠ [] ∧
        cutAfterSlash (originD p) = cutAfterSlash "org/proj".toList) ∧
    FindProjectByRemote "org/proj".toList [forkP1, forkP2fork] = .ok "P2".toList ∧
    FindProjectByRemote "org/proj".toList [forkP2fork, forkP1] = .ok "P2".toList :=
  claim_C4 _ _ (by decide) (by decide)

/-- C8 as stated is false at the empty target identity: a project with
an empty remote map is returned by pass 1, because the Go map index on
the missing `origin` key yields `""`, which equals the empty target. -/
theorem claim_C8_counterexample :
    FindProjectByRemote [] [⟨"q".toList, []⟩] = .ok "q".toList ∧
    (ProjectRemotes.mk "q".toList []).remotes = [] := by decide

/-- C8 amended: for every **non-empty** target identity, a project
whose remote map is empty is never the project found by any of the
three passes. -/
theorem claim_C8 (nwo : List Char) (projects : List ProjectRemotes)
    (p : ProjectRemotes) (hne : nwo ≠ [])
    (h : projects.find? (pass1b nwo) = some p ∨
         projects.find? (pass2b nwo) = some p ∨
         projects.find? (pass3b nwo) = some p) :
    p.remotes ≠ [] := by
  rcases h with h | h | h
  · have he : originD p = nwo := by simpa [pass1b] using List.find?_some h
    have hl := originD_eq_some he hne
    intro hnil
    rw [hnil] at hl
    simp [List.lookup] at hl
  · have hpred := List.find?_some h
    simp only [pass2b, Bool.and_eq_true] at hpred
    exact hasRemote_ne_nil hpred.1.1
  · exact hasRemote_ne_nil (by simpa [pass3b] using List.find?_some h)

/-- Closed instance of the amended C8. -/
theorem claim_C8_witness : forkP2origin.remotes ≠ [] :=
  claim_C8 "org/proj".toList [forkP2origin] forkP2origin (by decide) (Or.inl (by decide))


/-- `strconv.Quote` reproduces a printable, non-special ASCII character
unchanged. -/
theorem escChar_transparent {c : Char} (h : quoteTransparent c = true) :
    escChar c = [c] := by
  simp only [quoteTransparent, Bool.and_eq_true, decide_eq_true_eq,
    Bool.not_eq_eq_eq_not, Bool.not_true, beq_eq_false_iff_ne, ne_eq] at h
  obtain ⟨⟨⟨h32, h126⟩, hq⟩, hb⟩ := h
  unfold escChar
  rw [if_neg hq, if_neg hb,
    if_neg (fun hh => absurd (hh ▸ h32) (by decide)),
    if_neg (fun hh => absurd (hh ▸ h32) (by decide)),
    if_neg (fun hh => absurd (hh ▸ h32) (by decide)),
    if_neg (fun hh => absurd (hh ▸ h32) (by decide)),
    if_neg (fun hh => absurd (hh ▸ h32) (by decide)),
    if_neg (fun hh => absurd (hh ▸ h32) (by decide)),
    if_neg (fun hh => absurd (hh ▸ h32) (by decide)),
    if_neg (by omega)]

/-- `strconv.Quote` reproduces a fully-transparent string unchanged
between the added quotes. -/
theorem escBody_transparent {s : List Char}
    (h : ∀ c ∈ s, quoteTransparent c = true) : escBody s = s := by
  induction s with
  | nil => rfl
  | cons c cs ih =>
    have hc : escChar c = [c] := escChar_transparent (h c (List.mem_cons_self c cs))
    have hcs : escBody cs = cs := ih (fun d hd => h d (List.mem_cons_of_mem c hd))
    simp [escBody] at hcs ⊢
    rw [hc, hcs]
    simp

/-- The substring test accepts any explicitly-decomposed occurrence. -/
theorem containsSub_of_decomp (u n v : List Char) :
    containsSub n (u ++ n ++ v) = true := by
  unfold containsSub
  rw [List.any_eq_true]
  refine ⟨n ++ v, ?_, ?_⟩
  · rw [List.mem_tails, List.append_assoc]
    exact List.suffix_append u (n ++ v)
  · rw [List.isPrefixOf_iff_prefix]
    exact List.prefix_append n v

/-- C9 as stated is false for identities containing a character that
`%q` escapes: with the searched identity `a"b`, the error message
contains `a\"b`, not `a"b` — the identity is not contained verbatim. -/
theorem claim_C9_counterexample :
    FindProjectByRemote ['a', '"', 'b'] [] = .error (noMatchMsg ['a', '"', 'b']) ∧
    containsSub ['a', '"', 'b'] (noMatchMsg ['a', '"', 'b']) = false := by decide

/-- C9 amended: when no project matches in any pass, the resolver
fails with the no-matching-project error, and for every searched
identity made of characters that `%q` quoting leaves unchanged
(printable ASCII other than `"` and `\`) the message contains the
identity verbatim. -/
theorem claim_C9 (nwo : List Char) (projects : List ProjectRemotes)
    (htr : ∀ c ∈ nwo, quoteTransparent c = true)
    (hnm : ∀ p ∈ projects, originD p ≠ nwo ∧ hasRemoteNWO p.remotes nwo = false) :
    FindProjectByRemote nwo projects = .error (noMatchMsg nwo) ∧
    containsSub nwo (noMatchMsg nwo) = true := by
  constructor
  · have h1 := find?_pass1_none (fun p hp => (hnm p hp).1)
    have h23 := find?_pass23_none (fun p hp => (hnm p hp).2)
    unfold FindProjectByRemote
    rw [h1, h23.1, h23.2]
  · have hb : noMatchMsg nwo = (noMatchPre ++ ['"']) ++ nwo ++ ['"'] := by
      unfold noMatchMsg goQuote
      rw [escBody_transparent htr]
      simp
    rw [hb]
    exact containsSub_of_decomp _ _ _

/-- Closed instance of the amended C9. -/
theorem claim_C9_witness :
    FindProjectByRemote "acme/unknown".toList [] =
      .error (noMatchMsg "acme/unknown".toList) ∧
    containsSub "acme/unknown".toList (noMatchMsg "acme/unknown".toList) = true :=
  claim_C9 "acme/unknown".toList [] (by decide) (by decide)


/-- Cutting an actually-present prefix removes exactly it. -/
theorem cutPre_append (p rest : List Char) : cutPre p (p ++ rest) = rest := by
  unfold cutPre
  rw [if_pos (List.isPrefixOf_iff_prefix.mpr (List.prefix_append p rest))]
  exact List.drop_left p rest

/-- Cutting an absent prefix is the identity. -/
theorem cutPre_of_not {p s : List Char} (h : ¬ p <+: s) : cutPre p s = s := by
  unfold cutPre
  rw [if_neg (fun hh => h (List.isPrefixOf_iff_prefix.mp hh))]

/-- Trimming an actually-present suffix removes exactly it. -/
theorem trimSuf_append (suf r : List Char) : trimSuf suf (r ++ suf) = r := by
  unfold trimSuf
  rw [if_pos (List.isSuffixOf_iff_suffix.mpr (List.suffix_append r suf))]
  rw [show (r ++ suf).length - suf.length = r.length by simp]
  exact List.take_left r suf

/-- Trimming an absent suffix is the identity. -/
theorem trimSuf_of_not {suf s : List Char} (h : ¬ suf <:+ s) : trimSuf suf s = s := by
  unfold trimSuf
  rw [if_neg (fun hh => h (List.isSuffixOf_iff_suffix.mp hh))]

/-- A pattern containing `:` but no `/` is never a prefix of
`o ++ '/' :: r` when `o` is colon-free. -/
theorem not_pre_of_colon {p o r : List Char}
    (hp1 : ':' ∈ p) (hp2 : '/' ∉ p) (hoc : ':' ∉ o) : ¬ p <+: o ++ '/' :: r := by
  intro h
  have ho : o ++ ['/'] <+: o ++ '/' :: r := ⟨r, by simp⟩
  rcases List.prefix_or_prefix_of_prefix h ho with h1 | h2
  · have := h1.sublist.subset hp1
    simp only [List.mem_append, List.mem_singleton] at this
    rcases this with hh | hh
    · exact hoc hh
    · exact absurd hh (by decide)
  · exact hp2 (h2.sublist.subset (by simp))

/-- The SSH prefix never starts an `owner/...` identity with a
colon-free owner. -/
theorem not_ssh_pre {o : List Char} (r : List Char) (hoc : ':' ∉ o) :
    ¬ sshPre <+: o ++ '/' :: r :=
  not_pre_of_colon (by decide) (by decide) hoc

/-- The HTTPS prefix never starts an `owner/...` identity with a
colon-free owner (its own `https:` start already cannot). -/
theorem not_https_pre {o : List Char} (r : List Char) (hoc : ':' ∉ o) :
    ¬ httpsPre <+: o ++ '/' :: r := by
  intro h
  exact not_pre_of_colon (p := "https:".toList) (by decide) (by decide) hoc
    ((by decide : "https:".toList <+: httpsPre).trans h)

/-- The SSH prefix never starts an HTTPS URL (heads differ). -/
theorem not_ssh_of_https (x : List Char) : ¬ sshPre <+: httpsPre ++ x := by
  intro h
  have h0 := h.getElem (n := 0) (by decide)
  rw [List.getElem_append_left (by decide : 0 < httpsPre.length)] at h0
  exact absurd h0 (by decide)

/-- `.git` is not a suffix of `o ++ '/' :: r` when `r` does not itself
end in `.git`. -/
theorem not_git_suf (o : List Char) {r : List Char}
    (hrg : ¬ gitSuf <:+ r) : ¬ gitSuf <:+ o ++ '/' :: r := by
  intro h
  have hr : '/' :: r <:+ o ++ '/' :: r := List.suffix_append o ('/' :: r)
  rcases List.suffix_or_suffix_of_suffix h hr with h1 | h2
  · rcases List.suffix_cons_iff.mp h1 with h3 | h3
    · exact absurd (h3 ▸ List.mem_cons_self '/' r) (by decide)
    · exact hrg h3
  · exact absurd (h2.sublist.subset (List.mem_cons_self '/' r)) (by decide)

/-- `/` is not a suffix of `o ++ '/' :: r` when `r` is non-empty and
slash-free. -/
theorem not_slash_suf (o : List Char) {r : List Char}
    (hrs : '/' ∉ r) (hrne : r ≠ []) : ¬ slashSuf <:+ o ++ '/' :: r := by
  intro h
  have hr : '/' :: r <:+ o ++ '/' :: r := List.suffix_append o ('/' :: r)
  rcases List.suffix_or_suffix_of_suffix h hr with h1 | h2
  · rcases List.suffix_cons_iff.mp h1 with h3 | h3
    · have : ('/' : Char) :: ([] : List Char) = '/' :: r := h3
      exact hrne (List.cons.inj this).2.symm
    · exact hrs (h3.sublist.subset (show '/' ∈ slashSuf by decide))
  · have hlen := h2.length_le
    have h1 : slashSuf.length = 1 := by decide
    simp only [List.length_cons] at hlen
    exact hrne (List.length_eq_zero.mp (by omega))

/-- `.git` is not a suffix of anything ending in `/`. -/
theorem not_git_of_trailing_slash (z : List Char) : ¬ gitSuf <:+ z ++ slashSuf := by
  intro h
  have hr : slashSuf <:+ z ++ slashSuf := List.suffix_append z slashSuf
  rcases List.suffix_or_suffix_of_suffix h hr with h1 | h2
  · exact absurd h1.length_le (by decide)
  · exact absurd (h2.sublist.subset (show '/' ∈ slashSuf by decide))
      (show '/' ∉ gitSuf by decide)

/-- Neither URL prefix starts a bare `owner ++ '/' :: t` string with a
colon-free owner, so both cuts are the identity. -/
theorem cuts_id {o : List Char} (t : List Char) (hoc : ':' ∉ o) :
    cutPre httpsPre (cutPre sshPre (o ++ '/' :: t)) = o ++ '/' :: t := by
  rw [cutPre_of_not (not_ssh_pre t hoc), cutPre_of_not (not_https_pre t hoc)]

/-- Both suffix trims are the identity on a clean `owner/repo`. -/
theorem trims_id (o : List Char) {r : List Char}
    (hrs : '/' ∉ r) (hrg : ¬ gitSuf <:+ r) (hrne : r ≠ []) :
    trimSuf slashSuf (trimSuf gitSuf (o ++ '/' :: r)) = o ++ '/' :: r := by
  rw [trimSuf_of_not (not_git_suf o hrg), trimSuf_of_not (not_slash_suf o hrs hrne)]

/-- A clean `owner/repo` identity is a fixed point of
`NormalizeRemoteURL`. -/
theorem normalize_fixed {o r : List Char} (hoc : ':' ∉ o)
    (hrs : '/' ∉ r) (hrg : ¬ gitSuf <:+ r) (hrne : r ≠ []) :
    NormalizeRemoteURL (o ++ '/' :: r) = o ++ '/' :: r := by
  unfold NormalizeRemoteURL
  rw [cuts_id r hoc]
  exact trims_id o hrs hrg hrne

/-- Every supported URL shape normalizes to the clean `owner/repo`. -/
theorem normalize_supported (i : Nat) {o r : List Char} (hoc : ':' ∉ o)
    (hrs : '/' ∉ r) (hrg : ¬ gitSuf <:+ r) (hrne : r ≠ []) :
    NormalizeRemoteURL (mkSupportedURL i o r) = o ++ '/' :: r := by
  have hgit : o ++ '/' :: (r ++ gitSuf) = (o ++ '/' :: r) ++ gitSuf := by simp
  have hsl : o ++ '/' :: (r ++ slashSuf) = (o ++ '/' :: r) ++ slashSuf := by simp
  match i with
  | 0 =>
    show NormalizeRemoteURL (sshPre ++ (o ++ '/' :: (r ++ gitSuf))) = _
    unfold NormalizeRemoteURL
    rw [cutPre_append, cutPre_of_not (not_https_pre _ hoc), hgit, trimSuf_append]
    exact trimSuf_of_not (not_slash_suf o hrs hrne)
  | 1 =>
    show NormalizeRemoteURL (sshPre ++ (o ++ '/' :: r)) = _
    unfold NormalizeRemoteURL
    rw [cutPre_append, cutPre_of_not (not_https_pre _ hoc)]
    exact trims_id o hrs hrg hrne
  | 2 =>
    show NormalizeRemoteURL (httpsPre ++ (o ++ '/' :: (r ++ gitSuf))) = _
    unfold NormalizeRemoteURL
    rw [cutPre_of_not (not_ssh_of_https _), cutPre_append, hgit, trimSuf_append]
    exact trimSuf_of_not (not_slash_suf o hrs hrne)
  | 3 =>
    show NormalizeRemoteURL (httpsPre ++ (o ++ '/' :: r)) = _
    unfold NormalizeRemoteURL
    rw [cutPre_of_not (not_ssh_of_https _), cutPre_append]
    exact trims_id o hrs hrg hrne
  | 4 =>
    show NormalizeRemoteURL (httpsPre ++ (o ++ '/' :: (r ++ slashSuf))) = _
    unfold NormalizeRemoteURL
    rw [cutPre_of_not (not_ssh_of_https _), cutPre_append, hsl,
      trimSuf_of_not (not_git_of_trailing_slash _)]
    exact trimSuf_append _ _
  | (n + 5) =>
    show NormalizeRemoteURL (o ++ '/' :: r) = _
    exact normalize_fixed hoc hrs hrg hrne

/-- `cutPre` only ever removes characters from the front. -/
theorem cutPre_is_suffix (p s : List Char) : ∃ u, u ++ cutPre p s = s := by
  unfold cutPre
  by_cases h : p.isPrefixOf s
  · rw [if_pos h]
    exact ⟨s.take p.length, List.take_append_drop _ s⟩
  · rw [if_neg h]
    exact ⟨[], rfl⟩

/-- `trimSuf` only ever removes characters from the back. -/
theorem trimSuf_is_prefix (suf s : List Char) : ∃ v, trimSuf suf s ++ v = s := by
  unfold trimSuf
  by_cases h : suf.isSuffixOf s
  · rw [if_pos h]
    exact ⟨s.drop (s.length - suf.length), List.take_append_drop _ s⟩
  · rw [if_neg h]
    exact ⟨[], by simp⟩

/-- `NormalizeRemoteURL` only removes a prefix and a suffix: its result
is a contiguous substring of its input, every kept character unchanged
(in particular no case-folding happens). -/
theorem normalize_is_sub (s : List Char) :
    ∃ u v, u ++ NormalizeRemoteURL s ++ v = s := by
  obtain ⟨u1, hu1⟩ := cutPre_is_suffix sshPre s
  obtain ⟨u2, hu2⟩ := cutPre_is_suffix httpsPre (cutPre sshPre s)
  obtain ⟨v1, hv1⟩ := trimSuf_is_prefix gitSuf (cutPre httpsPre (cutPre sshPre s))
  obtain ⟨v2, hv2⟩ :=
    trimSuf_is_prefix slashSuf (trimSuf gitSuf (cutPre httpsPre (cutPre sshPre s)))
  refine ⟨u1 ++ u2, v2 ++ v1, ?_⟩
  have hN : NormalizeRemoteURL s ++ v2 =
      trimSuf gitSuf (cutPre httpsPre (cutPre sshPre s)) := hv2
  calc (u1 ++ u2) ++ NormalizeRemoteURL s ++ (v2 ++ v1)
      = u1 ++ (u2 ++ ((NormalizeRemoteURL s ++ v2) ++ v1)) := by
        simp [List.append_assoc]
    _ = u1 ++ (u2 ++ (trimSuf gitSuf (cutPre httpsPre (cutPre sshPre s)) ++ v1)) := by
        rw [hN]
    _ = u1 ++ (u2 ++ cutPre httpsPre (cutPre sshPre s)) := by rw [hv1]
    _ = u1 ++ cutPre sshPre s := by rw [hu2]
    _ = s := hu1


/-- C5: `NormalizeRemoteURL` is idempotent on every supported URL shape
(each shape normalizes to the clean `owner/repo`, which is a fixed
point); it applies no case-folding — its output is a contiguous
substring of its input with every kept character unchanged; and the
three spec examples all map to `a/b` (and an uppercase variant keeps
its case). -/
theorem claim_C5 (owner repo : List Char) (hoc : ':' ∉ owner)
    (hrs : '/' ∉ repo) (hrg : ¬ gitSuf <:+ repo) (hrne : repo ≠ []) :
    (∀ i, NormalizeRemoteURL (mkSupportedURL i owner repo) = owner ++ '/' :: repo) ∧
    (∀ i, NormalizeRemoteURL (NormalizeRemoteURL (mkSupportedURL i owner repo)) =
        NormalizeRemoteURL (mkSupportedURL i owner repo)) ∧
    (∀ s : List Char, ∃ u v, u ++ NormalizeRemoteURL s ++ v = s) ∧
    NormalizeRemoteURL "https://github.com/a/b.git".toList = "a/b".toList ∧
    NormalizeRemoteURL "git@github.com:a/b.git".toList = "a/b".toList ∧
    NormalizeRemoteURL "https://github.com/a/b/".toList = "a/b".toList ∧
    NormalizeRemoteURL "https://github.com/A/B.git".toList = "A/B".toList := by
  have h1 : ∀ i, NormalizeRemoteURL (mkSupportedURL i owner repo) =
      owner ++ '/' :: repo :=
    fun i => normalize_supported i hoc hrs hrg hrne
  refine ⟨h1, ?_, normalize_is_sub, by decide, by decide, by decide, by decide⟩
  intro i
  rw [h1 i, normalize_fixed hoc hrs hrg hrne]

/-- Closed instance of C5 at `owner = a`, `repo = b`. -/
theorem claim_C5_witness :
    NormalizeRemoteURL (NormalizeRemoteURL (mkSupportedURL 0 "a".toList "b".toList)) =
      NormalizeRemoteURL (mkSupportedURL 0 "a".toList "b".toList) ∧
    NormalizeRemoteURL (mkSupportedURL 2 "a".toList "b".toList) = "a/b".toList :=
  have h := claim_C5 "a".toList "b".toList (by decide) (by decide) (by decide) (by decide)
  ⟨h.2.1 0, (h.1 2).trans (by decide)⟩

/-- C10: `NormalizeRemoteURL` is total (it is a Lean function into
`List Char`; no error case exists) and, on every input starting with
neither recognized prefix, returns the input unchanged except for
trimming at most one trailing `.git` and then at most one trailing `/`
(the `trimSuf` characterization makes "at most one" precise); a
foreign-host URL therefore yields an identity-shaped string, and that
string participates in resolver comparisons, as the concrete
`gitlab.com` resolution shows. -/
theorem claim_C10 :
    (∀ raw : List Char, ¬ sshPre <+: raw → ¬ httpsPre <+: raw →
        NormalizeRemoteURL raw = trimSuf slashSuf (trimSuf gitSuf raw)) ∧
    (∀ suf s : List Char,
        (suf <:+ s → ∃ pre, pre ++ suf = s ∧ trimSuf suf s = pre) ∧
        (¬ suf <:+ s → trimSuf suf s = s)) ∧
    NormalizeRemoteURL "https://gitlab.com/a/b.git".toList =
      "https://gitlab.com/a/b".toList ∧
    FindProjectByRemote "https://gitlab.com/a/b".toList
        [normalizeProject "g".toList
          [(originStr, "https://gitlab.com/a/b.git".toList)]] = .ok "g".toList := by
  refine ⟨?_, ?_, by decide, by decide⟩
  · intro raw h1 h2
    unfold NormalizeRemoteURL
    rw [cutPre_of_not h1, cutPre_of_not h2]
  · intro suf s
    constructor
    · intro h
      obtain ⟨t, ht⟩ := h
      have h2 : suf <:+ s := ⟨t, ht⟩
      have hl : s.length - suf.length = t.length := by rw [← ht]; simp
      refine ⟨s.take (s.length - suf.length), ?_, ?_⟩
      · rw [hl, ← ht, List.take_left]
      · unfold trimSuf
        rw [if_pos (List.isSuffixOf_iff_suffix.mpr h2)]
    · intro h
      exact trimSuf_of_not h

/-- Closed instance of C10 at concrete foreign-host inputs. -/
theorem claim_C10_witness :
    NormalizeRemoteURL "https://gitlab.com/a/b.git".toList =
      trimSuf slashSuf (trimSuf gitSuf "https://gitlab.com/a/b.git".toList) ∧
    (∃ pre, pre ++ gitSuf = "x.git".toList ∧ trimSuf gitSuf "x.git".toList = pre) :=
  ⟨claim_C10.1 _ (by decide) (by decide),
   (claim_C10.2.1 gitSuf "x.git".toList).1 (by decide)⟩

end Forest
